import Mathlib

/-!
Verification of the DigitalEye inference worker pipeline, embedded from
src/DigitalEye/pyscripts/vision_engine.py.

The development shallowly embeds:

* the sentence segmenter inside the generation loop of the inner inference
  function (vision_engine.py lines 66-92): the pattern
  (?<=[.!?])\s+ of re.split as a character-level state machine, the
  per-fragment buffer update with emission of completed sentences, and the
  end-of-stream flush;
* the worker process loop (lines 10-45): the init handshake, the
  per-request message blocks on the response queue, and the cleanup block;
* the caller-side consumer loop of the inference method (lines 119-151)
  and the readiness poll (lines 161-174).

Images, machine integers and wall-clock durations play no role in the
properties below and are not modelled; text is List Char over the ASCII
alphabet (the Python whitespace class also matches rarer Unicode
whitespace, which nothing here exercises).
-/

namespace VisionEngine

/-- Sentence terminators of the split pattern: the character class [.!?]. -/
def isTerm (c : Char) : Bool := c == '.' || c == '!' || c == '?'

/-- ASCII whitespace, as matched by the Python whitespace class inside the
split pattern and as stripped by str.strip with no argument. -/
def isSpc (c : Char) : Bool :=
  c == ' ' || c == '\t' || c == '\n' || c == '\r' || c == '\x0B' || c == '\x0C'

/-- str.strip with no argument: drop whitespace from both ends. -/
def strip (s : List Char) : List Char :=
  ((s.dropWhile isSpc).reverse.dropWhile isSpc).reverse

/-- Scanner state of the regex split. pieces are the substrings already cut
off (in order), cur is the piece being scanned, pt records whether the last
scanned character is a sentence terminator (the one-character lookbehind),
sep records whether the scanner is inside a whitespace run that the greedy
pattern is consuming as a separator. -/
structure SplitState where
  pieces : List (List Char)
  cur : List Char
  pt : Bool
  sep : Bool
deriving DecidableEq

/-- One character of the left-to-right scan of re.split with the pattern
"terminator lookbehind, then one or more whitespace": a whitespace character
whose predecessor is a terminator starts a separator; the greedy quantifier
extends the separator over all following whitespace; any other character
belongs to the current piece. -/
def splitStep (st : SplitState) (c : Char) : SplitState :=
  if st.sep then
    if isSpc c then st
    else ⟨st.pieces, [c], isTerm c, false⟩
  else if isSpc c && st.pt then
    ⟨st.pieces ++ [st.cur], [], false, true⟩
  else
    ⟨st.pieces, st.cur ++ [c], isTerm c, false⟩

/-- Run the scanner over a string from a given state. -/
def splitRun (st : SplitState) (s : List Char) : SplitState := s.foldl splitStep st

/-- Initial scanner state: at position zero the lookbehind fails. -/
def initSt : SplitState := ⟨[], [], false, false⟩

/-- re.split with the sentence-boundary pattern applied to a whole string:
the pieces cut off so far plus the trailing piece (possibly empty, exactly
as re.split returns a final empty string when the input ends in a
separator). -/
def reSplit (s : List Char) : List (List Char) :=
  let st := splitRun initSt s
  st.pieces ++ [st.cur]

/-- End-of-stream sentinel fragment skipped by the generation loop
(vision_engine.py line 68). -/
def sentinel : List Char := "<|im_end|>".toList

/-- Emission applied to a list of split pieces (the inner for-loop over
complete sentences, lines 86-88): strip each piece, keep the nonempty
ones, in order. -/
def chunksOf (ps : List (List Char)) : List (List Char) :=
  (ps.map strip).filter (fun c => c ≠ [])

/-- One iteration of the for-chunk loop body for a non-sentinel fragment
(lines 71-88): append the fragment to the buffer, re-split the whole
buffer; with more than one piece, keep the last piece as the new buffer and
emit each earlier piece stripped, skipping pieces that strip to empty;
otherwise keep accumulating. Returns the new buffer and the emitted
chunks in order. -/
def segStep (buf : List Char) (frag : List Char) : List Char × List (List Char) :=
  if 1 < (reSplit (buf ++ frag)).length then
    ((reSplit (buf ++ frag)).getLastD [], chunksOf ((reSplit (buf ++ frag)).dropLast))
  else
    (buf ++ frag, [])

/-- The whole fragment loop (lines 67-88), including the sentinel skip:
threads the buffer through the fragments and concatenates the emissions. -/
def segLoop : List Char → List (List Char) → List Char × List (List Char)
  | buf, [] => (buf, [])
  | buf, f :: fs =>
    if f = sentinel then segLoop buf fs
    else
      let p := segStep buf f
      let r := segLoop p.1 fs
      (r.1, p.2 ++ r.2)

/-- Chunks emitted while the model stream is still running. -/
def segStream (frags : List (List Char)) : List (List Char) := (segLoop [] frags).2

/-- Buffer left over when the model stream ends. -/
def segFlushBuf (frags : List (List Char)) : List Char := (segLoop [] frags).1

/-- End-of-stream flush (lines 90-92): emit the stripped remaining buffer
when it is nonempty. -/
def segFlush (frags : List (List Char)) : List (List Char) :=
  if strip (segFlushBuf frags) = [] then [] else [strip (segFlushBuf frags)]

/-- All Streaming chunks a single generation produces for a fragment
sequence that runs to completion: streamed chunks followed by the flush. -/
def segAll (frags : List (List Char)) : List (List Char) :=
  segStream frags ++ segFlush frags

/-! Messages on the response queue. Each constructor stands for one dict
shape the worker puts (the error field that is always None, and the elapsed
time inside the result payload, carry no information for the claims and are
omitted; wall-clock time is not modelled). -/

/-- One message of the response queue. initMsg is the dict whose key init
holds the given text; streaming is the dict with status streaming and the
given chunk; complete is the dict with status complete; result is the dict
whose key result holds a payload with the given answer text (it has neither
a status key nor an init key); errorMsg is the dict with status error and
the given error text. -/
inductive Msg where
  | initMsg (s : List Char)
  | streaming (chunk : List Char)
  | complete
  | result (answer : List Char)
  | errorMsg (e : List Char)
deriving DecidableEq

/-- Environment oracle for one call of the generate method of the model
handle: the text fragments the stream yields, and, when exn is some e,
an exception with text e raised by the stream right after those fragments
(before the flush is reached). -/
structure GenBehavior where
  frags : List (List Char)
  exn : Option (List Char)
deriving DecidableEq

/-- Streaming messages the inner inference function puts for one
generation: on a normal stream end, the streamed chunks plus the flush
(lines 67-92); on an exception mid-stream, only the chunks already emitted
before the raise (control jumps to the handler at line 97, skipping the
flush). -/
def innerChunks (g : GenBehavior) : List (List Char) :=
  match g.exn with
  | some _ => segStream g.frags
  | none => segAll g.frags

/-- Answer text of the dict the inner inference function returns: the fixed
completion marker on success (line 94), or the handler text built from the
exception (lines 97-101). The inner function catches every exception itself
and returns normally in both cases. -/
def innerAnswer (g : GenBehavior) : List Char :=
  match g.exn with
  | some e => "Error: ".toList ++ e
  | none => "Generation Complete".toList

/-- Messages the worker loop enqueues for one request (lines 25-35): the
streaming messages put during the inner call, then the complete marker and
the result payload. Because the inner function returns normally even when
generation raises, the error branch of the worker loop (lines 36-37) is
unreachable for generation failures and no errorMsg is produced here. -/
def requestMsgs (g : GenBehavior) : List Msg :=
  (innerChunks g).map Msg.streaming ++ [Msg.complete, Msg.result (innerAnswer g)]

/-- One item of the request queue: the None shutdown sentinel, or a request
carrying the generation behavior the model will exhibit for it (image and
prompts do not influence the message protocol and are not modelled). -/
inductive QItem where
  | stop
  | req (g : GenBehavior)
deriving DecidableEq

/-- Serve loop of the worker process (lines 19-37): dequeue items one at a
time; the sentinel exits the loop; a request contributes its message block.
An exhausted item list models the worker blocked on an empty request queue,
with the messages enqueued so far. -/
def serveLoop : List QItem → List Msg
  | [] => []
  | QItem.stop :: _ => []
  | QItem.req g :: rest => requestMsgs g ++ serveLoop rest

/-- Whole worker process (lines 12-39): acquisition of the device and model
handles either succeeds or raises with text e. On failure the outer handler
puts a single error message and the serve loop is never entered; on success
the init message is put once and the serve loop runs. -/
def workerRun (acq : Except (List Char) Unit) (items : List QItem) : List Msg :=
  match acq with
  | Except.error e => [Msg.errorMsg e]
  | Except.ok _ => Msg.initMsg "VLM initialized".toList :: serveLoop items

/-! Caller side: the consumer loop of the inference method and the
readiness poll. -/

/-- Python exceptions relevant to the consumer loop: queueEmpty is
queue.Empty (whose str is the empty string, since it is raised with no
arguments); mpTimeout is multiprocessing.TimeoutError; other covers the
rest, each carrying its str text. -/
inductive PyExc where
  | queueEmpty
  | mpTimeout (s : List Char)
  | other (s : List Char)
deriving DecidableEq

/-- str applied to an exception object. -/
def pyStr : PyExc → List Char
  | PyExc.queueEmpty => []
  | PyExc.mpTimeout s => s
  | PyExc.other s => s

/-- Exception-handler matching for the first except clause of the consumer
loop (line 146): queue.Empty is not a subclass of
multiprocessing.TimeoutError, so only mpTimeout matches it. -/
def isMpTimeoutError : PyExc → Bool
  | PyExc.mpTimeout _ => true
  | _ => false

/-- Chunk yielded when a response-queue read exceeds its timeout. Python
Queue.get with a timeout raises queue.Empty when the timeout elapses; the
consumer loop dispatches it through its two except clauses (lines 146-150):
the multiprocessing.TimeoutError clause does not match, the generic clause
yields the text Error-colon-space followed by str of the exception. -/
def timeoutYield : List Char :=
  let e := PyExc.queueEmpty
  if isMpTimeoutError e then "Error: Timeout".toList
  else "Error: ".toList ++ pyStr e

/-- Consumer loop of the inference method (lines 130-151) run against the
sequence of messages the response queue will deliver; an exhausted list
models the next read timing out. Returns the yielded chunks and the
messages still undelivered when the loop ends. A streaming message yields
its chunk and continues; complete breaks without yielding; an error message
yields one synthetic chunk and breaks; an init message matches its branch
and continues; a result message has neither a status key nor an init key,
matches no branch, and the loop silently continues. -/
def consumeRun : List Msg → List (List Char) × List Msg
  | [] => ([timeoutYield], [])
  | m :: rest =>
    match m with
    | Msg.streaming c => let r := consumeRun rest; (c :: r.1, r.2)
    | Msg.complete => ([], rest)
    | Msg.errorMsg e => (["Error: ".toList ++ e], rest)
    | Msg.initMsg _ => consumeRun rest
    | Msg.result _ => consumeRun rest

/-- Supervisor-side state read by the readiness poll: the ready flag (the
getattr default is false before the first success), liveness of the worker
process, and the response-queue contents, front first. -/
structure SupState where
  ready : Bool
  alive : Bool
  q : List Msg
deriving DecidableEq

/-- Test of the dequeued message performed by the readiness poll (line
168): it is a dict whose init key equals the fixed handshake text. -/
def isInitOk (m : Msg) : Bool :=
  match m with
  | Msg.initMsg s => s = "VLM initialized".toList
  | _ => false

/-- One call of the readiness poll (lines 161-174): with the ready flag
set, return process liveness; with a dead process, return false; otherwise
dequeue one message with a short timeout (an empty queue models the timeout
path, which passes and returns false). A handshake message sets the ready
flag and returns true; any other message is re-put at the back of the
response queue and the call returns false. Returns the result and the
updated state. -/
def isReadyRun (st : SupState) : Bool × SupState :=
  if st.ready then (st.alive, st)
  else if !st.alive then (false, st)
  else
    match st.q with
    | [] => (false, st)
    | m :: rest =>
      if isInitOk m then (true, ⟨true, st.alive, rest⟩)
      else (false, ⟨st.ready, st.alive, rest ++ [m]⟩)

/-! Worker teardown. The finally block of the worker process (lines 40-45)
wraps the release of the model handle and then of the device handle in one
try whose single handler prints the failure. -/

/-- Environment of the cleanup block: whether the local name vlm was ever
bound (the VLM constructor succeeded), and whether each release call would
raise. With vlm unbound, the very first expression of the try raises a
NameError before any release runs. -/
structure CleanupEnv where
  vlmBound : Bool
  vlmReleaseFails : Bool
  vdevReleaseFails : Bool
deriving DecidableEq

/-- Observable outcome of the cleanup block: which release calls ran to
completion, whether the handler logged a failure, and whether an exception
propagated out of the block. -/
structure CleanupTrace where
  vlmReleased : Bool
  vdevReleased : Bool
  logged : Bool
  raised : Bool
deriving DecidableEq

/-- The finally block of the worker process (lines 40-45): attempt the
model release, then the device release, inside one shared try; the first
raise jumps to the handler, which logs and swallows it. -/
def cleanupRun (env : CleanupEnv) : CleanupTrace :=
  if !env.vlmBound then ⟨false, false, true, false⟩
  else if env.vlmReleaseFails then ⟨false, false, true, false⟩
  else if env.vdevReleaseFails then ⟨true, false, true, false⟩
  else ⟨true, true, false, false⟩

/-! Notions used to state and prove the segmenter claims. -/

/-- Scan for a sentence boundary (terminator immediately followed by
whitespace) in a string whose (virtual) predecessor character is a
terminator when pt holds. -/
def hasBoundaryFrom (pt : Bool) : List Char → Bool
  | [] => false
  | c :: cs => (pt && isSpc c) || hasBoundaryFrom (isTerm c) cs

/-- A sentence boundary occurs somewhere in the string. -/
def hasBoundary (s : List Char) : Bool := hasBoundaryFrom false s

/-- Lookbehind value after scanning a string: whether its last character is
a terminator (or the prior value for an empty string). -/
def ptAfter (pt : Bool) : List Char → Bool
  | [] => pt
  | c :: cs => ptAfter (isTerm c) cs

/-- Invariant of reachable scanner states: re-scanning the current piece
from scratch reproduces it together with the lookbehind bit, and inside a
separator the current piece is empty with a clear lookbehind. -/
def GoodCur (st : SplitState) : Prop :=
  splitRun initSt st.cur = ⟨[], st.cur, st.pt, false⟩
    ∧ (st.sep = true → st.cur = [] ∧ st.pt = false)

/-- Head cases of the simulation between the scanner restarted on the
retained buffer (left state) and the scanner running over the whole
concatenated text (right state, with pieces P already cut). Either no piece
has been cut since the restart and the restarted current piece carries an
extra all-whitespace prefix that the full scan consumed as separator text,
or the full scan sits inside a separator that the restarted scan has
buffered as whitespace. -/
def SimRelHd (P : List (List Char)) (s1 s2 : SplitState) : Prop :=
  (∃ w, (∀ c ∈ w, isSpc c = true)
      ∧ s1 = ⟨[], w ++ s2.cur, s2.pt, false⟩ ∧ s2.sep = false ∧ s2.pieces = P)
  ∨ (∃ w, (∀ c ∈ w, isSpc c = true)
      ∧ s1 = ⟨[], w, false, false⟩ ∧ s2 = ⟨P, [], false, true⟩)

/-- Tail case of the simulation: at least one piece has been cut since the
restart; the first such piece carries the whitespace prefix, later pieces
and the live fields agree. -/
def SimD3 (P : List (List Char)) (s1 s2 : SplitState) : Prop :=
  ∃ w q qs, (∀ c ∈ w, isSpc c = true)
    ∧ s1.pieces = (w ++ q) :: qs ∧ s2.pieces = P ++ q :: qs
    ∧ s1.cur = s2.cur ∧ s1.pt = s2.pt ∧ s1.sep = s2.sep

/-- Full simulation relation, closed under scanner steps. -/
def SimRel (P : List (List Char)) (s1 s2 : SplitState) : Prop :=
  SimRelHd P s1 s2 ∨ SimD3 P s1 s2

/-! Supporting lemmas. -/

lemma splitRun_nil (st : SplitState) : splitRun st [] = st := rfl

lemma splitRun_cons (st : SplitState) (c : Char) (cs : List Char) :
    splitRun st (c :: cs) = splitRun (splitStep st c) cs := rfl

lemma splitRun_append (st : SplitState) (a b : List Char) :
    splitRun st (a ++ b) = splitRun (splitRun st a) b :=
  List.foldl_append ..

/-- No message of a request block is an init message. -/
lemma initMsg_not_mem_requestMsgs (s : List Char) (g : GenBehavior) :
    Msg.initMsg s ∉ requestMsgs g := by
  simp [requestMsgs]

/-- No message put by the serve loop is an init message. -/
lemma initMsg_not_mem_serveLoop (s : List Char) (items : List QItem) :
    Msg.initMsg s ∉ serveLoop items := by
  induction items with
  | nil => simp [serveLoop]
  | cons it rest ih =>
    cases it with
    | stop => simp [serveLoop]
    | req g =>
      intro h
      rcases List.mem_append.mp h with h1 | h2
      · exact initMsg_not_mem_requestMsgs s g h1
      · exact ih h2

lemma dropWhile_append_all (p : Char → Bool) (w s : List Char)
    (h : ∀ c ∈ w, p c = true) :
    (w ++ s).dropWhile p = s.dropWhile p := by
  induction w with
  | nil => rfl
  | cons c cs ih =>
    have hc : p c = true := h c (List.mem_cons_self c cs)
    simp only [List.cons_append, List.dropWhile_cons, hc, if_true]
    exact ih (fun x hx => h x (List.mem_cons_of_mem c hx))

lemma strip_append_spc (w s : List Char) (h : ∀ c ∈ w, isSpc c = true) :
    strip (w ++ s) = strip s := by
  unfold strip
  rw [dropWhile_append_all isSpc w s h]

lemma strip_all_spc (w : List Char) (h : ∀ c ∈ w, isSpc c = true) :
    strip w = [] := by
  have h0 := strip_append_spc w [] h
  rw [List.append_nil] at h0
  rw [h0]
  rfl

lemma splitRun_no_boundary (s : List Char) :
    ∀ (P : List (List Char)) (cur : List Char) (pt : Bool),
      hasBoundaryFrom pt s = false →
      splitRun ⟨P, cur, pt, false⟩ s = ⟨P, cur ++ s, ptAfter pt s, false⟩ := by
  induction s with
  | nil => intro P cur pt _; simp [splitRun, ptAfter]
  | cons c cs ih =>
    intro P cur pt hb
    have hb1 : (pt && isSpc c) = false ∧ hasBoundaryFrom (isTerm c) cs = false := by
      simpa [hasBoundaryFrom] using hb
    have hcond : (isSpc c && pt) = false := by
      cases hpt : pt <;> cases hsc : isSpc c <;> simp_all
    have hstep : splitStep ⟨P, cur, pt, false⟩ c = ⟨P, cur ++ [c], isTerm c, false⟩ := by
      simp [splitStep, hcond]
    rw [splitRun_cons, hstep, ih P (cur ++ [c]) (isTerm c) hb1.2]
    simp [ptAfter]

lemma hasBoundaryFrom_append (a b : List Char) :
    ∀ pt, hasBoundaryFrom pt (a ++ b)
      = (hasBoundaryFrom pt a || hasBoundaryFrom (ptAfter pt a) b) := by
  induction a with
  | nil => intro pt; simp [hasBoundaryFrom, ptAfter]
  | cons c cs ih =>
    intro pt
    simp [hasBoundaryFrom, ptAfter, ih, Bool.or_assoc]

lemma segLoop_no_boundary (frags : List (List Char)) :
    ∀ buf, (∀ f ∈ frags, f ≠ sentinel) →
      hasBoundaryFrom false (buf ++ frags.flatten) = false →
      segLoop buf frags = (buf ++ frags.flatten, []) := by
  induction frags with
  | nil => intro buf _ _; simp [segLoop]
  | cons f fs ih =>
    intro buf hs hb
    have hf : ¬(f = sentinel) := hs f (by simp)
    have hb' : hasBoundaryFrom false ((buf ++ f) ++ fs.flatten) = false := by
      simpa [List.append_assoc] using hb
    rw [hasBoundaryFrom_append] at hb'
    have hbf : hasBoundaryFrom false (buf ++ f) = false :=
      (Bool.or_eq_false_iff.mp hb').1
    have hrun : splitRun initSt (buf ++ f)
        = ⟨[], buf ++ f, ptAfter false (buf ++ f), false⟩ := by
      have h0 := splitRun_no_boundary (buf ++ f) [] [] false hbf
      simpa [initSt] using h0
    have hstep : segStep buf f = (buf ++ f, []) := by
      unfold segStep reSplit
      simp [hrun]
    have hrest := ih (buf ++ f) (fun x hx => hs x (by simp [hx]))
      (by rw [hasBoundaryFrom_append]; exact hb')
    simp [segLoop, hf, hstep, hrest, List.append_assoc]

lemma splitStep_sep_spc (st : SplitState) (c : Char)
    (h1 : st.sep = true) (h2 : isSpc c = true) :
    splitStep st c = st := by
  simp [splitStep, h1, h2]

lemma splitStep_sep_exit (st : SplitState) (c : Char)
    (h1 : st.sep = true) (h2 : isSpc c = false) :
    splitStep st c = ⟨st.pieces, [c], isTerm c, false⟩ := by
  simp [splitStep, h1, h2]

lemma splitStep_complete (st : SplitState) (c : Char)
    (h1 : st.sep = false) (h2 : (isSpc c && st.pt) = true) :
    splitStep st c = ⟨st.pieces ++ [st.cur], [], false, true⟩ := by
  simp [splitStep, h1, h2]

lemma splitStep_push (st : SplitState) (c : Char)
    (h1 : st.sep = false) (h2 : (isSpc c && st.pt) = false) :
    splitStep st c = ⟨st.pieces, st.cur ++ [c], isTerm c, false⟩ := by
  simp [splitStep, h1, h2]

lemma isTerm_eq_false_of_isSpc (c : Char) (h : isSpc c = true) :
    isTerm c = false := by
  simp only [isSpc, Bool.or_eq_true, beq_iff_eq] at h
  rcases h with ((((h | h) | h) | h) | h) | h <;> subst h <;> decide

lemma chunksOf_append (a b : List (List Char)) :
    chunksOf (a ++ b) = chunksOf a ++ chunksOf b := by
  simp [chunksOf]

lemma chunksOf_cons_spc_prefix (w q : List Char) (qs : List (List Char))
    (hw : ∀ c ∈ w, isSpc c = true) :
    chunksOf ((w ++ q) :: qs) = chunksOf (q :: qs) := by
  simp [chunksOf, strip_append_spc w q hw]

lemma chunksOf_single (x : List Char) :
    chunksOf [x] = if strip x = [] then [] else [strip x] := by
  by_cases h : strip x = [] <;> simp [chunksOf, h]

lemma goodCur_initSt : GoodCur initSt :=
  ⟨rfl, fun h => Bool.noConfusion h⟩

lemma goodCur_step (st : SplitState) (c : Char) (h : GoodCur st) :
    GoodCur (splitStep st c) := by
  obtain ⟨h1, h2⟩ := h
  by_cases hsep : st.sep = true
  · by_cases hspc : isSpc c = true
    · rw [splitStep_sep_spc st c hsep hspc]
      exact ⟨h1, h2⟩
    · have hspc' : isSpc c = false := by simpa using hspc
      rw [splitStep_sep_exit st c hsep hspc']
      refine ⟨?_, fun h => Bool.noConfusion h⟩
      show splitRun initSt [c] = ⟨[], [c], isTerm c, false⟩
      show splitStep initSt c = _
      simp [splitStep, initSt]
  · have hsep' : st.sep = false := by simpa using hsep
    by_cases hcond : (isSpc c && st.pt) = true
    · rw [splitStep_complete st c hsep' hcond]
      exact ⟨rfl, fun _ => ⟨rfl, rfl⟩⟩
    · have hcond' : (isSpc c && st.pt) = false := by simpa using hcond
      rw [splitStep_push st c hsep' hcond']
      refine ⟨?_, fun h => Bool.noConfusion h⟩
      show splitRun initSt (st.cur ++ [c]) = ⟨[], st.cur ++ [c], isTerm c, false⟩
      rw [splitRun_append, h1]
      show splitStep ⟨[], st.cur, st.pt, false⟩ c = _
      rw [splitStep_push ⟨[], st.cur, st.pt, false⟩ c rfl hcond']

lemma goodCur_run (st : SplitState) (s : List Char) (h : GoodCur st) :
    GoodCur (splitRun st s) := by
  induction s generalizing st with
  | nil => exact h
  | cons c cs ih => exact ih (splitStep st c) (goodCur_step st c h)

lemma splitStep_pieces (st : SplitState) (c : Char) :
    (splitStep st c).pieces = st.pieces
      ∨ (splitStep st c).pieces = st.pieces ++ [st.cur] := by
  by_cases h1 : st.sep = true
  · by_cases h2 : isSpc c = true
    · rw [splitStep_sep_spc st c h1 h2]; exact Or.inl rfl
    · rw [splitStep_sep_exit st c h1 (by simpa using h2)]; exact Or.inl rfl
  · have h1' : st.sep = false := by simpa using h1
    by_cases h2 : (isSpc c && st.pt) = true
    · rw [splitStep_complete st c h1' h2]; exact Or.inr rfl
    · rw [splitStep_push st c h1' (by simpa using h2)]; exact Or.inl rfl

lemma splitRun_pieces_prefix (s : List Char) :
    ∀ st : SplitState, ∃ ts, (splitRun st s).pieces = st.pieces ++ ts := by
  induction s with
  | nil => intro st; exact ⟨[], by simp [splitRun]⟩
  | cons c cs ih =>
    intro st
    obtain ⟨ts, ht⟩ := ih (splitStep st c)
    rcases splitStep_pieces st c with h | h
    · exact ⟨ts, by rw [splitRun_cons, ht, h]⟩
    · exact ⟨[st.cur] ++ ts, by rw [splitRun_cons, ht, h, List.append_assoc]⟩

lemma splitRun_cur_of_pieces_nil (s : List Char) :
    ∀ (cur : List Char) (pt : Bool),
      (splitRun ⟨[], cur, pt, false⟩ s).pieces = [] →
      (splitRun ⟨[], cur, pt, false⟩ s).cur = cur ++ s := by
  induction s with
  | nil => intro cur pt _; simp [splitRun]
  | cons c cs ih =>
    intro cur pt hp
    by_cases hcond : (isSpc c && pt) = true
    · exfalso
      have hstep : splitStep ⟨[], cur, pt, false⟩ c = ⟨[cur], [], false, true⟩ := by
        simpa using splitStep_complete ⟨[], cur, pt, false⟩ c rfl hcond
      rw [splitRun_cons, hstep] at hp
      obtain ⟨ts, ht⟩ := splitRun_pieces_prefix cs ⟨[cur], [], false, true⟩
      rw [ht] at hp
      simp at hp
    · have hcond' : (isSpc c && pt) = false := by simpa using hcond
      have hstep : splitStep ⟨[], cur, pt, false⟩ c = ⟨[], cur ++ [c], isTerm c, false⟩ :=
        splitStep_push ⟨[], cur, pt, false⟩ c rfl hcond'
      rw [splitRun_cons, hstep] at hp ⊢
      rw [ih (cur ++ [c]) (isTerm c) hp]
      simp

lemma splitRun_initSt_cur (s : List Char)
    (h : (splitRun initSt s).pieces = []) :
    (splitRun initSt s).cur = s := by
  have h0 := splitRun_cur_of_pieces_nil s [] false (by exact h)
  simpa using h0

lemma simRel_step (P : List (List Char)) (s1 s2 : SplitState) (c : Char)
    (h : SimRel P s1 s2) : SimRel P (splitStep s1 c) (splitStep s2 c) := by
  rcases h with (⟨w, hw, he, hsep2, hp2⟩ | ⟨w, hw, he, he2⟩)
    | ⟨w, q, qs, hw, hp1, hp2, hc, hpt, hsep⟩
  · subst he
    by_cases hcond : (isSpc c && s2.pt) = true
    · have h1 : splitStep (⟨[], w ++ s2.cur, s2.pt, false⟩ : SplitState) c
          = ⟨[w ++ s2.cur], [], false, true⟩ := by
        simpa using splitStep_complete ⟨[], w ++ s2.cur, s2.pt, false⟩ c rfl hcond
      have h2 : splitStep s2 c = ⟨s2.pieces ++ [s2.cur], [], false, true⟩ :=
        splitStep_complete s2 c hsep2 hcond
      rw [h1, h2]
      refine Or.inr ⟨w, s2.cur, [], hw, rfl, ?_, rfl, rfl, rfl⟩
      rw [hp2]
    · have hcond' : (isSpc c && s2.pt) = false := by simpa using hcond
      have h1 : splitStep (⟨[], w ++ s2.cur, s2.pt, false⟩ : SplitState) c
          = ⟨[], (w ++ s2.cur) ++ [c], isTerm c, false⟩ := by
        simpa using splitStep_push ⟨[], w ++ s2.cur, s2.pt, false⟩ c rfl hcond'
      have h2 : splitStep s2 c = ⟨s2.pieces, s2.cur ++ [c], isTerm c, false⟩ :=
        splitStep_push s2 c hsep2 hcond'
      rw [h1, h2]
      refine Or.inl (Or.inl ⟨w, hw, ?_, rfl, hp2⟩)
      simp [List.append_assoc]
  · subst he; subst he2
    by_cases hspc : isSpc c = true
    · have h2 : splitStep (⟨P, [], false, true⟩ : SplitState) c
          = ⟨P, [], false, true⟩ :=
        splitStep_sep_spc ⟨P, [], false, true⟩ c rfl hspc
      have hterm : isTerm c = false := isTerm_eq_false_of_isSpc c hspc
      have h1 : splitStep (⟨[], w, false, false⟩ : SplitState) c
          = ⟨[], w ++ [c], false, false⟩ := by
        have h0 := splitStep_push ⟨[], w, false, false⟩ c rfl (by simp)
        rw [hterm] at h0
        exact h0
      rw [h1, h2]
      refine Or.inl (Or.inr ⟨w ++ [c], ?_, rfl, rfl⟩)
      intro x hx
      rcases List.mem_append.mp hx with hx | hx
      · exact hw x hx
      · simp at hx; subst hx; exact hspc
    · have hspc' : isSpc c = false := by simpa using hspc
      have h2 : splitStep (⟨P, [], false, true⟩ : SplitState) c
          = ⟨P, [c], isTerm c, false⟩ :=
        splitStep_sep_exit ⟨P, [], false, true⟩ c rfl hspc'
      have h1 : splitStep (⟨[], w, false, false⟩ : SplitState) c
          = ⟨[], w ++ [c], isTerm c, false⟩ :=
        splitStep_push ⟨[], w, false, false⟩ c rfl (by simp [hspc'])
      rw [h1, h2]
      exact Or.inl (Or.inl ⟨w, hw, rfl, rfl, rfl⟩)
  · by_cases hsep2 : s2.sep = true
    · have hsep1 : s1.sep = true := by rw [hsep, hsep2]
      by_cases hspc : isSpc c = true
      · rw [splitStep_sep_spc s1 c hsep1 hspc, splitStep_sep_spc s2 c hsep2 hspc]
        exact Or.inr ⟨w, q, qs, hw, hp1, hp2, hc, hpt, hsep⟩
      · have hspc' : isSpc c = false := by simpa using hspc
        rw [splitStep_sep_exit s1 c hsep1 hspc', splitStep_sep_exit s2 c hsep2 hspc']
        exact Or.inr ⟨w, q, qs, hw, hp1, hp2, rfl, rfl, rfl⟩
    · have hsep2' : s2.sep = false := by simpa using hsep2
      have hsep1 : s1.sep = false := by rw [hsep, hsep2']
      by_cases hcond : (isSpc c && s2.pt) = true
      · have hcond1 : (isSpc c && s1.pt) = true := by rw [hpt]; exact hcond
        rw [splitStep_complete s1 c hsep1 hcond1, splitStep_complete s2 c hsep2' hcond]
        refine Or.inr ⟨w, q, qs ++ [s2.cur], hw, ?_, ?_, rfl, rfl, rfl⟩
        · rw [hp1, hc]; simp
        · rw [hp2]; simp [List.append_assoc]
      · have hcond' : (isSpc c && s2.pt) = false := by simpa using hcond
        have hcond1 : (isSpc c && s1.pt) = false := by rw [hpt]; exact hcond'
        rw [splitStep_push s1 c hsep1 hcond1, splitStep_push s2 c hsep2' hcond']
        exact Or.inr ⟨w, q, qs, hw, hp1, hp2, by rw [hc], rfl, rfl⟩

lemma simRel_run (P : List (List Char)) (s : List Char) :
    ∀ s1 s2, SimRel P s1 s2 → SimRel P (splitRun s1 s) (splitRun s2 s) := by
  induction s with
  | nil => intro s1 s2 h; exact h
  | cons c cs ih =>
    intro s1 s2 h
    rw [splitRun_cons, splitRun_cons]
    exact ih _ _ (simRel_step P s1 s2 c h)

lemma segLoop_sim (frags : List (List Char)) :
    ∀ (buf : List Char) (st2 : SplitState),
      (∀ f ∈ frags, f ≠ sentinel) →
      GoodCur st2 →
      SimRelHd st2.pieces (splitRun initSt buf) st2 →
      ∃ ts,
        (splitRun st2 frags.flatten).pieces = st2.pieces ++ ts
          ∧ (segLoop buf frags).2 = chunksOf ts
          ∧ SimRelHd (splitRun st2 frags.flatten).pieces
              (splitRun initSt (segLoop buf frags).1)
              (splitRun st2 frags.flatten) := by
  induction frags with
  | nil =>
    intro buf st2 _ _ hsim
    exact ⟨[], (List.append_nil _).symm, rfl, hsim⟩
  | cons f fs ih =>
    intro buf st2 hs hg hsim
    have hf : ¬(f = sentinel) := hs f (by simp)
    have hs' : ∀ x ∈ fs, x ≠ sentinel := fun x hx => hs x (by simp [hx])
    have hsimR : SimRel st2.pieces (splitRun (splitRun initSt buf) f) (splitRun st2 f) :=
      simRel_run st2.pieces f _ _ (Or.inl hsim)
    have hbuff : splitRun initSt (buf ++ f) = splitRun (splitRun initSt buf) f :=
      splitRun_append initSt buf f
    have hg' : GoodCur (splitRun st2 f) := goodCur_run st2 f hg
    have hchain : splitRun st2 (f :: fs).flatten = splitRun (splitRun st2 f) fs.flatten := by
      show splitRun st2 (f ++ fs.flatten) = _
      rw [splitRun_append]
    rcases hsimR with (⟨w, hw, he, hsep2, hp2⟩ | ⟨w, hw, he, he2⟩)
      | ⟨w, q, qs, hw, hp1, hp2, hc, hpt, hsep⟩
    · -- no split happened inside this fragment
      have hre : reSplit (buf ++ f) = [w ++ (splitRun st2 f).cur] := by
        show (splitRun initSt (buf ++ f)).pieces ++ [(splitRun initSt (buf ++ f)).cur] = _
        rw [hbuff, he]
        rfl
      have hstep : segStep buf f = (buf ++ f, []) := by
        unfold segStep
        rw [hre]
        simp
      have hsim' : SimRelHd (splitRun st2 f).pieces
          (splitRun initSt (buf ++ f)) (splitRun st2 f) :=
        Or.inl ⟨w, hw, by rw [hbuff, he], hsep2, rfl⟩
      obtain ⟨ts, h1, h2, h3⟩ := ih (buf ++ f) (splitRun st2 f) hs' hg' hsim'
      refine ⟨ts, ?_, ?_, ?_⟩
      · rw [hchain, h1, hp2]
      · simp only [segLoop, if_neg hf, hstep]
        simpa using h2
      · rw [hchain]
        have h4 : (segLoop buf (f :: fs)).1 = (segLoop (buf ++ f) fs).1 := by
          simp [segLoop, hf, hstep]
        rw [h4]
        exact h3
    · -- the full scan sits inside a separator after this fragment
      have hre : reSplit (buf ++ f) = [w] := by
        show (splitRun initSt (buf ++ f)).pieces ++ [(splitRun initSt (buf ++ f)).cur] = _
        rw [hbuff, he]
        rfl
      have hstep : segStep buf f = (buf ++ f, []) := by
        unfold segStep
        rw [hre]
        simp
      have hp2' : (splitRun st2 f).pieces = st2.pieces := by rw [he2]
      have hsim' : SimRelHd (splitRun st2 f).pieces
          (splitRun initSt (buf ++ f)) (splitRun st2 f) := by
        refine Or.inr ⟨w, hw, by rw [hbuff, he], ?_⟩
        rw [he2]
      obtain ⟨ts, h1, h2, h3⟩ := ih (buf ++ f) (splitRun st2 f) hs' hg' hsim'
      refine ⟨ts, ?_, ?_, ?_⟩
      · rw [hchain, h1, hp2']
      · simp only [segLoop, if_neg hf, hstep]
        simpa using h2
      · rw [hchain]
        have h4 : (segLoop buf (f :: fs)).1 = (segLoop (buf ++ f) fs).1 := by
          simp [segLoop, hf, hstep]
        rw [h4]
        exact h3
    · -- at least one piece was completed inside this fragment
      have hre : reSplit (buf ++ f) = ((w ++ q) :: qs) ++ [(splitRun st2 f).cur] := by
        show (splitRun initSt (buf ++ f)).pieces ++ [(splitRun initSt (buf ++ f)).cur] = _
        rw [hbuff, hp1, hc]
      have hlen : 1 < (((w ++ q) :: qs) ++ [(splitRun st2 f).cur]).length := by
        simp only [List.length_append, List.length_cons]
        omega
      have hstep : segStep buf f = ((splitRun st2 f).cur, chunksOf (q :: qs)) := by
        unfold segStep
        rw [hre, if_pos hlen]
        congr 1
        · rw [List.getLastD_eq_getLast?, List.getLast?_concat]
          rfl
        · rw [List.dropLast_concat]
          exact chunksOf_cons_spc_prefix w q qs hw
      have hg1 := hg'.1
      have hg2 := hg'.2
      have hsim' : SimRelHd (splitRun st2 f).pieces
          (splitRun initSt (splitRun st2 f).cur) (splitRun st2 f) := by
        by_cases hsep' : (splitRun st2 f).sep = true
        · obtain ⟨hcur0, hpt0⟩ := hg2 hsep'
          refine Or.inr ⟨[], by simp, ?_, ?_⟩
          · rw [hcur0]; rfl
          · have h4 : (⟨(splitRun st2 f).pieces, (splitRun st2 f).cur,
                (splitRun st2 f).pt, (splitRun st2 f).sep⟩ : SplitState)
                = ⟨(splitRun st2 f).pieces, [], false, true⟩ := by
              rw [hcur0, hpt0, hsep']
            exact h4
        · have hsep'' : (splitRun st2 f).sep = false := by simpa using hsep'
          exact Or.inl ⟨[], by simp, hg1, hsep'', rfl⟩
      obtain ⟨ts, h1, h2, h3⟩ := ih (splitRun st2 f).cur (splitRun st2 f) hs' hg' hsim'
      refine ⟨(q :: qs) ++ ts, ?_, ?_, ?_⟩
      · rw [hchain, h1, hp2, List.append_assoc]
      · simp only [segLoop, if_neg hf, hstep]
        rw [chunksOf_append]
        simpa using h2
      · rw [hchain]
        have h4 : (segLoop buf (f :: fs)).1 = (segLoop (splitRun st2 f).cur fs).1 := by
          simp [segLoop, hf, hstep]
        rw [h4]
        exact h3

lemma dropWhile_head_not (p : Char → Bool) (l : List Char) (c : Char) (cs : List Char)
    (h : l.dropWhile p = c :: cs) : p c = false := by
  induction l with
  | nil => exact absurd h (by simp)
  | cons a l ih =>
    rw [List.dropWhile_cons] at h
    by_cases hp : p a = true
    · rw [if_pos hp] at h; exact ih h
    · rw [if_neg (by simpa using hp)] at h
      injection h with h1 _
      subst h1
      simpa using hp

lemma dropWhile_cons_false (p : Char → Bool) (c : Char) (cs : List Char)
    (h : p c = false) : (c :: cs).dropWhile p = c :: cs := by
  rw [List.dropWhile_cons, if_neg (by simp [h])]

lemma dropWhile_suffix_ex (p : Char → Bool) (l : List Char) :
    ∃ u, u ++ l.dropWhile p = l := by
  induction l with
  | nil => exact ⟨[], rfl⟩
  | cons a l ih =>
    by_cases hp : p a = true
    · obtain ⟨u, hu⟩ := ih
      refine ⟨a :: u, ?_⟩
      rw [List.dropWhile_cons, if_pos hp]
      simpa using hu
    · refine ⟨[], ?_⟩
      rw [List.dropWhile_cons, if_neg (by simpa using hp)]
      rfl

lemma strip_head_not (s : List Char) (c : Char) (cs : List Char)
    (h : strip s = c :: cs) : isSpc c = false := by
  obtain ⟨v, hv⟩ := dropWhile_suffix_ex isSpc ((s.dropWhile isSpc).reverse)
  have ht : s.dropWhile isSpc = strip s ++ v.reverse := by
    have h0 := congrArg List.reverse hv
    simpa [strip, List.reverse_append] using h0.symm
  rw [h] at ht
  exact dropWhile_head_not isSpc s c (cs ++ v.reverse) (by simpa using ht)

lemma strip_last_not (s : List Char) (c : Char) (cs : List Char)
    (h : strip s = cs ++ [c]) : isSpc c = false := by
  have hu : (s.dropWhile isSpc).reverse.dropWhile isSpc = c :: cs.reverse := by
    have h0 := congrArg List.reverse h
    simpa [strip, List.reverse_append] using h0
  exact dropWhile_head_not isSpc _ c _ hu

lemma strip_idem (s : List Char) : strip (strip s) = strip s := by
  cases hx : strip s with
  | nil => rfl
  | cons c cs =>
    rw [← hx]
    have hhead : isSpc c = false := strip_head_not s c cs hx
    rcases hrev : (strip s).reverse with _ | ⟨d, rest⟩
    · rw [List.reverse_eq_nil_iff] at hrev
      rw [hrev] at hx
      cases hx
    · have hlast : strip s = rest.reverse ++ [d] := by
        have h0 := congrArg List.reverse hrev
        simpa using h0
      have hd : isSpc d = false := strip_last_not s d rest.reverse hlast
      show ((strip s |>.dropWhile isSpc).reverse.dropWhile isSpc).reverse = strip s
      rw [hx, dropWhile_cons_false isSpc c cs hhead, ← hx, hrev,
          dropWhile_cons_false isSpc d rest hd, ← hrev, List.reverse_reverse]

lemma chunksOf_mem (ps : List (List Char)) :
    ∀ c ∈ chunksOf ps, strip c = c ∧ c ≠ [] := by
  intro c hc
  unfold chunksOf at hc
  rw [List.mem_filter] at hc
  obtain ⟨hc1, hc2⟩ := hc
  obtain ⟨p, _, rfl⟩ := List.mem_map.mp hc1
  refine ⟨strip_idem p, ?_⟩
  simpa using hc2

/-- Claim C1 (code bug): the claim says an exception raised during a
generation is surfaced to the caller as an Error message, with zero or more
prior Streaming chunks, one error chunk, and no Complete/Result pair. The
code instead catches the exception inside the inner inference function and
returns a normal result dict whose answer field carries the error text, so
the worker enqueues Complete then Result and the caller sees a normally
terminated chunk sequence with no error chunk. This theorem evaluates the
embedding at a request whose generation raises with text boom after zero
fragments. -/
theorem claim1_generation_error_swallowed :
    requestMsgs ⟨[], some "boom".toList⟩
        = [Msg.complete, Msg.result "Error: boom".toList]
      ∧ (consumeRun (requestMsgs ⟨[], some "boom".toList⟩)).1 = [] := by
  decide

/-- Claim C3 (confirmed): the serve loop emits the message blocks of the
submitted requests in order, one full block before the next begins, and
each block is zero or more Streaming messages followed by either the
Complete/Result pair or a single Error message. -/
theorem claim3_message_blocks (gs : List GenBehavior) :
    serveLoop (gs.map QItem.req) = (gs.map requestMsgs).flatten
      ∧ ∀ g : GenBehavior, ∃ cs : List (List Char),
          (∃ ans, requestMsgs g = cs.map Msg.streaming ++ [Msg.complete, Msg.result ans])
          ∨ (∃ e, requestMsgs g = cs.map Msg.streaming ++ [Msg.errorMsg e]) := by
  constructor
  · induction gs with
    | nil => rfl
    | cons g gs ih => simp [serveLoop, ih]
  · intro g
    exact ⟨innerChunks g, Or.inl ⟨innerAnswer g, rfl⟩⟩

/-- Claim C4 (code bug): the claim says a response-queue read that exceeds
the per-read timeout makes the consumer yield exactly one synthetic chunk
equal to the text Error-colon-Timeout and end. The read actually raises
queue.Empty, which the multiprocessing.TimeoutError clause does not match,
so the generic clause yields the text Error-colon-space followed by the
empty str of the exception, and the intended branch is dead code. -/
theorem claim4_timeout_yields_empty_error :
    consumeRun [] = (["Error: ".toList], [])
      ∧ timeoutYield ≠ "Error: Timeout".toList := by
  decide

/-- Claim C5 (confirmed): fed the three fragments of the concrete
scenario, the segmenter emits exactly the chunk about the sky during
streaming and the chunk about the grass at the end-of-stream flush. -/
theorem claim5_concrete_segmentation :
    segStream ["The sky is".toList, " blue. The".toList, " grass is green.".toList]
        = ["The sky is blue.".toList]
      ∧ segFlush ["The sky is".toList, " blue. The".toList, " grass is green.".toList]
        = ["The grass is green.".toList] := by
  decide

/-- Claim C7, counterexample: in an environment where the model release
raises and the device release would succeed, the cleanup block never runs
the device release, refuting the claim that each release is independently
guarded so that a failure of one does not prevent the other. -/
theorem claim7_counterexample :
    cleanupRun ⟨true, true, false⟩ = ⟨false, false, true, false⟩ := by
  decide

/-- Claim C7, amended (corrected): on worker loop exit the cleanup block
attempts the model release and then the device release inside one shared
guard: the device release runs only when the model name is bound and the
model release does not raise, any failure is logged, and no exception
propagates out of the block. -/
theorem claim7_single_guard (env : CleanupEnv) :
    (cleanupRun env).raised = false
      ∧ (cleanupRun env).vlmReleased = (env.vlmBound && !env.vlmReleaseFails)
      ∧ (cleanupRun env).vdevReleased
          = (env.vlmBound && !env.vlmReleaseFails && !env.vdevReleaseFails)
      ∧ (cleanupRun env).logged
          = !(env.vlmBound && !env.vlmReleaseFails && !env.vdevReleaseFails) := by
  rcases env with ⟨b1, b2, b3⟩
  cases b1 <;> cases b2 <;> cases b3 <;> decide

/-- Claim C8 (confirmed): the readiness poll returns true exactly when the
worker process is alive and either the ready flag is already set or the
handshake init message is at the front of the response queue; once the flag
is set the poll keeps returning process liveness and the flag stays set;
and a dequeued non-init message is re-delivered to the back of the response
queue rather than dropped. -/
theorem claim8_readiness (st : SupState) :
    ((isReadyRun st).1 = true ↔
        st.alive = true
          ∧ (st.ready = true
              ∨ ∃ rest, st.q = Msg.initMsg "VLM initialized".toList :: rest))
      ∧ (st.ready = true →
          (isReadyRun st).1 = st.alive ∧ ((isReadyRun st).2).ready = true)
      ∧ (∀ m rest, st.ready = false → st.alive = true → st.q = m :: rest →
          isInitOk m = false → (isReadyRun st).2 = ⟨false, true, rest ++ [m]⟩) := by
  rcases st with ⟨r, a, q⟩
  refine ⟨?_, ?_, ?_⟩
  · cases r <;> cases a <;> simp [isReadyRun]
    cases q with
    | nil => simp
    | cons m rest =>
      simp only []
      constructor
      · intro h
        split at h
        · rename_i hm
          cases m with
          | initMsg s =>
            refine ⟨rest, ?_⟩
            have : s = "VLM initialized".toList := by
              simpa [isInitOk] using hm
            simp [this]
          | streaming c => simp [isInitOk] at hm
          | complete => simp [isInitOk] at hm
          | result ans => simp [isInitOk] at hm
          | errorMsg e => simp [isInitOk] at hm
        · exact absurd h (by simp)
      · rintro ⟨rest', hq⟩
        have hm : m = Msg.initMsg "VLM initialized".toList := by
          injection hq with h1 h2
        subst hm
        simp [isInitOk]
  · intro hr
    subst hr
    simp [isReadyRun]
  · intro m rest hr ha hq hm
    subst hr; subst ha; subst hq
    simp [isReadyRun, hm]

/-- Claim C8, witness: the poll on a not-ready alive supervisor whose queue
holds a single complete message re-delivers that message. -/
theorem claim8_readiness_witness :
    (isReadyRun ⟨false, true, [Msg.complete]⟩).2
      = (⟨false, true, [Msg.complete]⟩ : SupState) :=
  (claim8_readiness ⟨false, true, [Msg.complete]⟩).2.2 Msg.complete []
    rfl rfl rfl (by decide)

/-- Claim C9 (confirmed): when device or model acquisition fails, the
worker puts a single error message carrying the failure detail and never
enters the serve loop; on success the init message is emitted exactly once,
before any request block, and the serve loop never emits another init
message. -/
theorem claim9_init_protocol (e : List Char) (items : List QItem) :
    workerRun (Except.error e) items = [Msg.errorMsg e]
      ∧ workerRun (Except.ok ()) items
          = Msg.initMsg "VLM initialized".toList :: serveLoop items
      ∧ ∀ s, Msg.initMsg s ∉ serveLoop items := by
  exact ⟨rfl, rfl, fun s => initMsg_not_mem_serveLoop s items⟩

/-- Claim C10 (confirmed): consuming a request block, the caller-side loop
yields the streaming chunks and breaks at the Complete message, leaving the
Result message undelivered on the response queue; a later consumption that
dequeues that Result message matches no branch of the dispatch and silently
skips it. -/
theorem claim10_result_never_yielded
    (cs : List (List Char)) (ans : List Char) (rest : List Msg) :
    consumeRun (cs.map Msg.streaming ++ [Msg.complete, Msg.result ans] ++ rest)
        = (cs, Msg.result ans :: rest)
      ∧ consumeRun (Msg.result ans :: rest) = consumeRun rest := by
  constructor
  · induction cs with
    | nil => rfl
    | cons c cs ih =>
      simp only [List.append_assoc, List.cons_append, List.nil_append] at ih ⊢
      simp [consumeRun, ih]
  · rfl

/-- Claim C6, counterexample: a single all-whitespace fragment contains no
sentence boundary, yet the segmenter emits no chunk at all (the flush skips
a buffer that strips to empty), refuting the claim that exactly one chunk
is always emitted. -/
theorem claim6_counterexample :
    hasBoundary (List.flatten [[' ']]) = false
      ∧ (∀ f ∈ ([[' ']] : List (List Char)), f ≠ sentinel)
      ∧ segAll [[' ']] = [] := by
  decide

/-- Claim C6, amended (corrected): for every fragment sequence (sentinel
fragments aside) in which no sentence terminator followed by whitespace
ever appears, the segmenter emits nothing during streaming and the whole
concatenation stays in the buffer; at stream end it emits exactly one chunk
equal to the full trimmed buffer when that trim is nonempty, and no chunk
at all when the buffer trims to empty. -/
theorem claim6_no_boundary_flush (frags : List (List Char))
    (hs : ∀ f ∈ frags, f ≠ sentinel)
    (hb : hasBoundary frags.flatten = false) :
    segStream frags = []
      ∧ segFlushBuf frags = frags.flatten
      ∧ segAll frags
          = if strip frags.flatten = [] then [] else [strip frags.flatten] := by
  have h := segLoop_no_boundary frags [] hs (by simpa [hasBoundary] using hb)
  refine ⟨?_, ?_, ?_⟩
  · simp [segStream, h]
  · simp [segFlushBuf, h]
  · simp [segAll, segStream, segFlush, segFlushBuf, h]

/-- Claim C6, witness: the amended theorem applied to the single fragment
hello, whose trimmed buffer is nonempty. -/
theorem claim6_no_boundary_flush_witness :
    (∀ f ∈ (["hello".toList] : List (List Char)), f ≠ sentinel)
      ∧ hasBoundary (List.flatten ["hello".toList]) = false
      ∧ segAll ["hello".toList] = [strip "hello".toList] := by
  refine ⟨by decide, by decide, ?_⟩
  have h := (claim6_no_boundary_flush ["hello".toList] (by decide) (by decide)).2.2
  rw [h]
  decide

/-- Claim C2, counterexample: the fragment sequence with the single
fragment a-period-space-b contains a sentence boundary, but the
concatenation of the emitted chunks drops the boundary whitespace, so it
differs from the trimmed concatenation of the input fragments. -/
theorem claim2_counterexample :
    hasBoundary (List.flatten ["a. b".toList]) = true
      ∧ (∀ f ∈ (["a. b".toList] : List (List Char)), f ≠ sentinel)
      ∧ (segAll ["a. b".toList]).flatten ≠ strip (List.flatten ["a. b".toList]) := by
  decide

/-- Claim C2, amended (corrected): for every fragment sequence (sentinel
fragments aside) containing at least one sentence terminator followed by
whitespace, the chunks the segmenter emits are exactly the trimmed nonempty
pieces of the one-shot boundary split of the concatenated input, so their
concatenation equals the concatenation of the input fragments with each
boundary whitespace run removed and the ends trimmed, rather than the
trimmed concatenation of the inputs themselves; and every emitted chunk is
trimmed and nonempty, hence nonempty after trimming. -/
theorem claim2_segmenter_concat (frags : List (List Char))
    (hs : ∀ f ∈ frags, f ≠ sentinel)
    (hb : hasBoundary frags.flatten = true) :
    segAll frags = chunksOf (reSplit frags.flatten)
      ∧ (segAll frags).flatten = (chunksOf (reSplit frags.flatten)).flatten
      ∧ ∀ c ∈ segAll frags, strip c = c ∧ c ≠ [] := by
  have hinit : SimRelHd initSt.pieces (splitRun initSt []) initSt :=
    Or.inl ⟨[], by simp, rfl, rfl, rfl⟩
  obtain ⟨ts, h1, h2, h3⟩ := segLoop_sim frags [] initSt hs goodCur_initSt hinit
  have h1' : (splitRun initSt frags.flatten).pieces = ts := by simpa using h1
  have h3' : SimRelHd (splitRun initSt frags.flatten).pieces
      (splitRun initSt (segFlushBuf frags)) (splitRun initSt frags.flatten) := h3
  have hstripeq : strip (segFlushBuf frags)
      = strip (splitRun initSt frags.flatten).cur := by
    rcases h3' with ⟨w, hw, he, _, _⟩ | ⟨w, hw, he, he2⟩
    · have hp0 : (splitRun initSt (segFlushBuf frags)).pieces = [] := by rw [he]
      have hcf := splitRun_initSt_cur (segFlushBuf frags) hp0
      have hb0 : segFlushBuf frags
          = w ++ (splitRun initSt frags.flatten).cur := by
        rw [← hcf, he]
      rw [hb0, strip_append_spc w _ hw]
    · have hp0 : (splitRun initSt (segFlushBuf frags)).pieces = [] := by rw [he]
      have hcf := splitRun_initSt_cur (segFlushBuf frags) hp0
      have hbw : segFlushBuf frags = w := by rw [← hcf, he]
      have hcur : (splitRun initSt frags.flatten).cur = [] := by rw [he2]
      rw [hbw, hcur, strip_all_spc w hw]
      rfl
  have hflusheq : segFlush frags
      = chunksOf [(splitRun initSt frags.flatten).cur] := by
    rw [chunksOf_single]
    unfold segFlush
    rw [hstripeq]
  have hre : reSplit frags.flatten
      = ts ++ [(splitRun initSt frags.flatten).cur] := by
    show (splitRun initSt frags.flatten).pieces
        ++ [(splitRun initSt frags.flatten).cur] = _
    rw [h1']
  have hmain : segAll frags = chunksOf (reSplit frags.flatten) := by
    unfold segAll
    rw [show segStream frags = chunksOf ts from h2, hflusheq, hre, chunksOf_append]
  refine ⟨hmain, by rw [hmain], ?_⟩
  rw [hmain]
  exact chunksOf_mem _

/-- Claim C2, witness: the amended theorem applied to a two-fragment input
with one boundary; both hypotheses hold by computation. -/
theorem claim2_segmenter_concat_witness :
    (∀ f ∈ (["Hi. Y".toList, "o go.".toList] : List (List Char)), f ≠ sentinel)
      ∧ hasBoundary (List.flatten ["Hi. Y".toList, "o go.".toList]) = true
      ∧ segAll ["Hi. Y".toList, "o go.".toList]
          = chunksOf (reSplit (List.flatten ["Hi. Y".toList, "o go.".toList])) :=
  ⟨by decide, by decide,
    (claim2_segmenter_concat ["Hi. Y".toList, "o go.".toList]
      (by decide) (by decide)).1⟩

end VisionEngine
